import Mathlib

/-!
Shallow embedding of the array utilities in `src/02_array.ts` and the
stack in `src/06_stack.ts`, together with proofs about the claims made
by the specification.

JavaScript arrays are modelled as `List T`; the JavaScript operations
used by the source (`Array.prototype.slice`, `Array.prototype.findIndex`,
indexed read, indexed write) are embedded with their ECMAScript
semantics: `slice` clamps negative indices by adding the length and
clamps overshooting indices to the length, `findIndex` returns `-1`
when no element matches, an indexed read out of range yields
`undefined`, and an indexed write past the end extends the array
(padding with holes, which read back as `undefined`).  The distinct
JavaScript sentinels `undefined` and `null` are modelled by `JsValue`.
-/

set_option autoImplicit false

namespace Koans

universe u

/-- A JavaScript value of underlying type `T`: either a proper value,
the `undefined` sentinel, or the `null` sentinel. -/
inductive JsValue (T : Type u) where
  | val : T → JsValue T
  | undef : JsValue T
  | null : JsValue T
deriving DecidableEq, Repr

/-- ECMAScript index clamping used by `Array.prototype.slice`: a
negative argument counts from the end (`max(len + i, 0)`), a
non-negative one is clamped to the length (`min(i, len)`). -/
def jsClamp (len : Nat) (i : Int) : Nat :=
  if i < 0 then ((len : Int) + i).toNat else min i.toNat len

/-- Embedding of `a.slice(s, e)` of ECMAScript: the elements from the clamped start
index (inclusive) to the clamped end index (exclusive). -/
def jsSlice {T : Type u} (a : List T) (s e : Int) : List T :=
  (a.drop (jsClamp a.length s)).take (jsClamp a.length e - jsClamp a.length s)

/-- Indexed read `a[n]` of ECMAScript on an array: the element when
`n` is in range, the `undefined` sentinel otherwise. -/
def jsGet {T : Type u} (a : List T) (n : Int) : JsValue T :=
  if 0 ≤ n then ((a.get? n.toNat).map JsValue.val).getD JsValue.undef
  else JsValue.undef

/-- Indexed write `a[i] = v` of ECMAScript on an array of (possibly
absent) elements: in range it updates, past the end it pads with holes
(`none`, reading back as `undefined`) and appends. -/
def jsSet {T : Type u} (a : List (Option T)) (i : Nat) (v : T) : List (Option T) :=
  if i < a.length then a.set i (some v)
  else a ++ List.replicate (i - a.length) none ++ [some v]

/-- Recursive worker for `Array.prototype.findIndex`: `rest` is the
part of the array not yet scanned, `whole` the full array passed to the
callback, `i` the index of the head of `rest` in `whole`. -/
def jsFindIndexAux {T : Type u} (p : T → Nat → List T → Bool) :
    List T → List T → Nat → Int
  | [], _, _ => -1
  | x :: rest, whole, i =>
      if p x i whole then (i : Int) else jsFindIndexAux p rest whole (i + 1)

/-- Embedding of `a.findIndex(p)` of ECMAScript: the first index whose element
satisfies the callback (called with value, index and the array), `-1`
when none does. -/
def jsFindIndex {T : Type u} (p : T → Nat → List T → Bool) (a : List T) : Int :=
  jsFindIndexAux p a a 0

/-- Embedding of `chunk` from `src/02_array.ts` lines 24-28: `ceil(len / size)`
groups, group `i` being `input.slice(i * size, i * size + size)`.  For
`size ≥ 1` (the only case the claims quantify over) `Math.ceil` of the
float division equals `(len + size - 1) / size` in natural division. -/
def chunk {T : Type u} (input : List T) (size : Nat) : List (List T) :=
  (List.range ((input.length + size - 1) / size)).map
    (fun i => jsSlice input (i * size : Nat) ((i * size + size : Nat) : Int))

/-- Embedding of `drop` from `src/02_array.ts` lines 101-103:
`input.slice(count, input.length)`. -/
def drop {T : Type u} (input : List T) (count : Int) : List T :=
  jsSlice input count (input.length : Int)

/-- Embedding of `dropRight` from `src/02_array.ts` lines 115-117:
`input.slice(0, input.length - count)`. -/
def dropRight {T : Type u} (input : List T) (count : Int) : List T :=
  jsSlice input 0 ((input.length : Int) - count)

/-- Embedding of `negate` from `src/02_array.ts` lines 132-136: wraps a predicate,
inverting its boolean result. -/
def negate {T : Type u} (predicate : T → Nat → List T → Bool) :
    T → Nat → List T → Bool :=
  fun v i c => ! predicate v i c

/-- Embedding of `dropWhile` from `src/02_array.ts` lines 138-144:
`collection.slice(collection.findIndex(negate(predicate)), collection.length)`. -/
def dropWhile {T : Type u} (collection : List T)
    (predicate : T → Nat → List T → Bool) : List T :=
  jsSlice collection (jsFindIndex (negate predicate) collection)
    (collection.length : Int)

/-- Embedding of `dropRightWhile` from `src/02_array.ts` lines 155-161: the offset is
`collection.slice().reverse().findIndex(negate(predicate))` and the
result `collection.slice(0, collection.length - endOffset)`. -/
def dropRightWhile {T : Type u} (collection : List T)
    (predicate : T → Nat → List T → Bool) : List T :=
  jsSlice collection 0
    ((collection.length : Int) - jsFindIndex (negate predicate) collection.reverse)

/-- State after a call to `fill`: the caller's input array and the
freshly built result.  `fill` copies the input (`collection.slice()` at
`src/02_array.ts` line 177) and only ever writes to the copy, so the
input component is the unmodified argument. -/
structure FillState (T : Type u) where
  collection : List T
  result : List (Option T)
deriving DecidableEq, Repr

/-- The loop of `fill` (`src/02_array.ts` lines 179-181):
`for (let i = startIndex; i < endIndex; i++) result[i] = replacement`,
embedded with the remaining iteration count `endIndex - startIndex` as
fuel.  Writes past the end of `result` extend it, as in JavaScript. -/
def fillLoop {T : Type u} (result : List (Option T)) (replacement : T)
    (i : Nat) : Nat → List (Option T)
  | 0 => result
  | fuel + 1 => fillLoop (jsSet result i replacement) replacement (i + 1) fuel

/-- Embedding of `fill` from `src/02_array.ts` lines 171-184 (for non-negative
indices, the only ones the claims exercise): copy the collection, then
run the write loop on the copy. -/
def fill {T : Type u} (collection : List T) (replacement : T)
    (startIndex endIndex : Nat) : FillState T :=
  { collection := collection
    result := fillLoop (collection.map some) replacement startIndex
      (endIndex - startIndex) }

/-- Embedding of `findIndex` from `src/02_array.ts` lines 204-211 (for a
non-negative start index): search `collection.slice(startIndex)` with
the JavaScript `findIndex`, then re-offset unless the result is `-1`. -/
def findIndex {T : Type u} (collection : List T)
    (predicate : T → Nat → List T → Bool) (startIndex : Nat) : Int :=
  let foundIndex := jsFindIndex predicate
    (jsSlice collection (startIndex : Int) (collection.length : Int))
  if foundIndex = -1 then foundIndex else (startIndex : Int) + foundIndex

/-- Embedding of `nth` from `src/02_array.ts` lines 249-251: `array[n]`. -/
def nth {T : Type u} (array : List T) (n : Int) : JsValue T :=
  jsGet array n

/-- Embedding of `nth` with its default argument `n = 0` (the call `nth(array)`). -/
def nthDefault {T : Type u} (array : List T) : JsValue T :=
  nth array 0

/-- The `Stack` class of `src/06_stack.ts`: its one field is the
backing array, whose head is the top of the stack. -/
structure Stack (T : Type u) where
  array : List T
deriving DecidableEq, Repr

/-- The `Stack` constructor (`src/06_stack.ts` lines 30-32): an empty
backing array. -/
def Stack.new (T : Type u) : Stack T := ⟨[]⟩

/-- The `size` getter (`src/06_stack.ts` lines 34-36):
`this.array.length`. -/
def Stack.size {T : Type u} (s : Stack T) : Nat :=
  s.array.length

/-- Embedding of `pop` (`src/06_stack.ts` lines 38-42): read `this.array[0]` (an
out-of-range read on an empty stack, hence `undefined`), replace the
array by `this.array.slice(1)`, return the read value.  The embedding
returns the popped value together with the updated stack. -/
def Stack.pop {T : Type u} (s : Stack T) : JsValue T × Stack T :=
  (jsGet s.array 0, ⟨jsSlice s.array 1 (s.array.length : Int)⟩)

/-- Embedding of `peek` (`src/06_stack.ts` lines 44-46):
`this.array.length ? this.array[0] : null` — the literal `null` on an
empty stack. -/
def Stack.peek {T : Type u} (s : Stack T) : JsValue T :=
  if s.array.length ≠ 0 then jsGet s.array 0 else JsValue.null

/-- Embedding of `push` (`src/06_stack.ts` lines 51-53):
`this.array = [value, ...this.array]`. -/
def Stack.push {T : Type u} (s : Stack T) (value : T) : Stack T :=
  ⟨value :: s.array⟩

/-- Embedding of `toArray` (`src/06_stack.ts` lines 48-50): returns the backing
array (top first) without mutating it. -/
def Stack.toArray {T : Type u} (s : Stack T) : List T :=
  s.array

/-- One public operation on a stack, for reasoning about operation
sequences. -/
inductive StackOp (T : Type u) where
  | push : T → StackOp T
  | pop : StackOp T
  | peek : StackOp T
  | toArray : StackOp T

/-- The state after one operation: `push` and `pop` assign to
`this.array`; the bodies of `peek` and `toArray` contain no assignment,
so they leave the state unchanged. -/
def applyOp {T : Type u} (s : Stack T) : StackOp T → Stack T
  | .push v => s.push v
  | .pop => (s.pop).2
  | .peek => s
  | .toArray => s

/-- The state after a sequence of operations. -/
def runOps {T : Type u} (s : Stack T) (ops : List (StackOp T)) : Stack T :=
  ops.foldl applyOp s

/-- The number of `push` operations in a sequence. -/
def numPushes {T : Type u} : List (StackOp T) → Nat
  | [] => 0
  | .push _ :: rest => numPushes rest + 1
  | .pop :: rest => numPushes rest
  | .peek :: rest => numPushes rest
  | .toArray :: rest => numPushes rest

/-- The number of successful pops in a sequence run from `s`: `pop`
operations that find a non-empty stack. -/
def succPops {T : Type u} : Stack T → List (StackOp T) → Nat
  | _, [] => 0
  | s, .push v :: rest => succPops (applyOp s (.push v)) rest
  | s, .pop :: rest =>
      (if s.size = 0 then 0 else 1) + succPops (applyOp s .pop) rest
  | s, .peek :: rest => succPops (applyOp s .peek) rest
  | s, .toArray :: rest => succPops (applyOp s .toArray) rest

section SliceLemmas

variable {T : Type u}

/-- Clamping a natural-number index: the negative branch is dead and
`toNat` is the identity. -/
lemma jsClamp_natCast (len k : Nat) : jsClamp len (k : Int) = min k len := by
  unfold jsClamp
  rw [if_neg (by omega), Int.toNat_natCast]

/-- Slicing with natural-number bounds is drop-then-take. -/
lemma jsSlice_natCast (a : List T) (s e : Nat) :
    jsSlice a (s : Int) (e : Int) = (a.drop s).take (e - s) := by
  unfold jsSlice
  rw [jsClamp_natCast, jsClamp_natCast]
  rcases le_or_lt s a.length with hs | hs
  · rw [min_eq_left hs]
    rcases le_or_lt e a.length with he | he
    · rw [min_eq_left he]
    · rw [min_eq_right he.le,
        List.take_of_length_le (by simp [List.length_drop]),
        List.take_of_length_le (by simp [List.length_drop]; omega)]
  · rw [min_eq_right hs.le, List.drop_length,
      List.drop_eq_nil_of_le hs.le]
    simp

/-- Slicing from an index to the length is `List.drop`. -/
lemma jsSlice_fromStart (a : List T) (s : Nat) :
    jsSlice a (s : Int) (a.length : Int) = a.drop s := by
  rw [jsSlice_natCast]
  exact List.take_of_length_le (by simp [List.length_drop])

/-- Slicing from index `1` to the length is `List.tail`. -/
lemma jsSlice_one (a : List T) : jsSlice a 1 (a.length : Int) = a.tail := by
  rw [show (1 : Int) = ((1 : Nat) : Int) from rfl, jsSlice_fromStart,
    List.drop_one]

/-- Reading index `0` of a non-empty array gives its head. -/
lemma jsGet_zero_cons (x : T) (a : List T) :
    jsGet (x :: a) 0 = JsValue.val x := by
  simp [jsGet]

/-- Reading any index of the empty array gives `undefined`. -/
lemma jsGet_nil (n : Int) : jsGet ([] : List T) n = JsValue.undef := by
  unfold jsGet
  split <;> simp

/-- Unfolding of `Stack.pop`: read the head (or `undefined`), keep the
tail. -/
lemma Stack.pop_eq (s : Stack T) :
    Stack.pop s = (jsGet s.array 0, ⟨s.array.tail⟩) := by
  unfold Stack.pop
  rw [jsSlice_one]

end SliceLemmas

/-- Claim C1: the specification says `dropWhile`/`dropRightWhile` remove
the maximal prefix/suffix on which the predicate holds, so an
all-`true` predicate must yield the empty sequence.  Evaluating the
code at the failing input `[1, 2]` with the constantly-true predicate:
`findIndex(negate(p))` returns `-1`, which `dropWhile` uses as a slice
start (wrapping to the last element, giving `[2]`) and `dropRightWhile`
subtracts from the length (giving end index `3`, clamped, so the whole
input `[1, 2]` is returned).  Neither result is empty. -/
theorem dropWhile_allTrue_failing :
    dropWhile [1, 2] (fun _ _ _ => true) = [2]
    ∧ dropRightWhile [1, 2] (fun _ _ _ => true) = [1, 2] := by
  decide

/-- Claim C2: the specification says `dropRight(seq, count)` is empty
whenever `count ≥ length(seq)`.  Evaluating the code at the failing
input `dropRight([1, 2], 3)`: the slice end `2 - 3 = -1` is negative,
which JavaScript `slice` wraps to index `1`, so the code returns `[1]`
instead of the empty sequence. -/
theorem dropRight_countExceeds_failing :
    dropRight [1, 2] 3 = [1] := by
  decide

/-- Claim C3, counterexample: the claim says `findIndex(seq, p,
startIndex)` returns the lowest `i ≥ startIndex` with
`p(seq[i], i, seq)` true, and `-1` exactly when no such index exists.
With `seq = [10, 20]`, `p = (_, i, _) => i == 1` and `startIndex = 1`,
index `1` qualifies (second conjunct), yet the code searches the sliced
suffix and hands the predicate the suffix-relative index `0`, so it
returns `-1` (first conjunct). -/
theorem findIndex_absoluteIndex_counterexample :
    findIndex [10, 20] (fun _ i _ => i == 1) 1 = -1
    ∧ (fun (_ : Nat) (i : Nat) (_ : List Nat) => i == 1) 20 1 [10, 20] = true := by
  decide

/-- Claim C5: the specification requires `fill` to clamp or reject
out-of-bounds indices and never to produce a longer sequence.
Evaluating the code at the failing input `fill([1], 9, 1, 3)`: the loop
writes past the end of the copied array, extending it to `[1, 9, 9]` of
length `3`, while the clamped call `fill([1], 9, 1, 1)` would give
`[1]`.  The code neither clamps nor raises. -/
theorem fill_outOfBounds_failing :
    (fill [1] 9 1 3).result = [some 1, some 9, some 9]
    ∧ (fill [1] 9 1 3).result.length = 3
    ∧ (fill [1] 9 1 1).result = [some 1] := by
  decide

/-- Claim C9: the two empty-stack sentinels differ — `pop` on an empty
`Stack` returns `undefined` (an out-of-range read of the backing
array), `peek` on an empty `Stack` returns the literal `null`, and the
two sentinels are distinct values. -/
theorem stack_sentinels_differ :
    (Stack.pop (Stack.new Nat)).1 = JsValue.undef
    ∧ Stack.peek (Stack.new Nat) = JsValue.null
    ∧ (JsValue.undef : JsValue Nat) ≠ JsValue.null := by
  decide

/-- Claim C4: `pop` on a non-empty stack returns the most recently
pushed element not yet popped (popping after a push returns the pushed
value and restores the previous stack) and decreases `size` by one;
`pop` on an empty stack returns the `undefined` sentinel, raises no
error, and leaves the state — including `size` — unchanged; and after
`push(1)`, `push(2)`, `push(3)` successive pops return `3`, `2`, `1`
and then the sentinel with `size` `0`. -/
theorem stack_pop_contract (T : Type) :
    (∀ (s : Stack T) (v : T), Stack.pop (Stack.push s v) = (JsValue.val v, s))
    ∧ (∀ (s : Stack T) (v : T),
        Stack.size (Stack.pop (Stack.push s v)).2 + 1 = Stack.size (Stack.push s v))
    ∧ (∀ s : Stack T, Stack.size s = 0 →
        Stack.pop s = (JsValue.undef, s) ∧ Stack.size (Stack.pop s).2 = 0)
    ∧ (Stack.pop (Stack.push (Stack.push (Stack.push (Stack.new Nat) 1) 2) 3)
        = (JsValue.val 3, Stack.push (Stack.push (Stack.new Nat) 1) 2)
      ∧ Stack.size (Stack.push (Stack.push (Stack.new Nat) 1) 2) = 2
      ∧ Stack.pop (Stack.push (Stack.push (Stack.new Nat) 1) 2)
        = (JsValue.val 2, Stack.push (Stack.new Nat) 1)
      ∧ Stack.pop (Stack.push (Stack.new Nat) 1) = (JsValue.val 1, Stack.new Nat)
      ∧ Stack.pop (Stack.new Nat) = (JsValue.undef, Stack.new Nat)
      ∧ Stack.size (Stack.new Nat) = 0) := by
  refine ⟨?_, ?_, ?_, by decide⟩
  · intro s v
    obtain ⟨arr⟩ := s
    rw [Stack.pop_eq]
    simp [Stack.push, jsGet_zero_cons]
  · intro s v
    obtain ⟨arr⟩ := s
    rw [Stack.pop_eq]
    simp [Stack.push, Stack.size, List.length_tail]
  · intro s h
    obtain ⟨arr⟩ := s
    rw [Stack.size] at h
    rw [List.length_eq_zero] at h
    subst h
    rw [Stack.pop_eq]
    exact ⟨by simp [jsGet_nil], by simp [Stack.size]⟩

/-- Claim C4 witness: the empty-stack conjunct of `stack_pop_contract`
applied to the concrete empty stack of naturals. -/
theorem stack_pop_contract_witness :
    Stack.pop (Stack.new Nat) = (JsValue.undef, Stack.new Nat)
    ∧ Stack.size (Stack.pop (Stack.new Nat)).2 = 0 :=
  (stack_pop_contract Nat).2.2.1 (Stack.new Nat) rfl

/-- Claim C10: `nth(array, n)` returns the `undefined` sentinel for
every index outside `[0, length(array))` (and raises no error, being a
total function of the embedding), returns the element at index `n` for
in-range `n`, and `n` defaults to `0` when omitted. -/
theorem nth_contract (T : Type) (a : List T) (n : Int) :
    ((n < 0 ∨ (a.length : Int) ≤ n) → nth a n = JsValue.undef)
    ∧ (∀ (k : Nat) (hk : k < a.length), nth a (k : Int) = JsValue.val (a.get ⟨k, hk⟩))
    ∧ nthDefault a = nth a 0 := by
  refine ⟨?_, ?_, rfl⟩
  · intro h
    unfold nth jsGet
    rcases h with h | h
    · rw [if_neg (by omega)]
    · by_cases h0 : 0 ≤ n
      · rw [if_pos h0, List.get?_eq_none.mpr (by omega)]
        rfl
      · rw [if_neg h0]
  · intro k hk
    unfold nth jsGet
    rw [if_pos (by omega), Int.toNat_natCast, List.get?_eq_get hk]
    rfl

/-- Claim C10 witness: `nth_contract` at the concrete array `[5, 6]`,
with the out-of-range index `7`, the in-range index `1`, and the
default call. -/
theorem nth_contract_witness :
    nth [5, 6] 7 = JsValue.undef
    ∧ nth [5, 6] 1 = JsValue.val 6
    ∧ nthDefault [5, 6] = nth [5, 6] 0 := by
  refine ⟨(nth_contract Nat [5, 6] 7).1 (Or.inr (by decide)), ?_,
    (nth_contract Nat [5, 6] 0).2.2⟩
  have h := (nth_contract Nat [5, 6] 1).2.1 1 (by decide)
  simpa using h

/-- The fill loop, run entirely inside the bounds of `result`, replaces
the elements at positions `[i, i + n)` and nothing else. -/
lemma fillLoop_spec {T : Type u} :
    ∀ (n : Nat) (res : List (Option T)) (v : T) (i : Nat), i + n ≤ res.length →
      fillLoop res v i n
        = res.take i ++ List.replicate n (some v) ++ res.drop (i + n) := by
  intro n
  induction n with
  | zero =>
      intro res v i _
      simp [fillLoop, List.take_append_drop]
  | succ n ih =>
      intro res v i hle
      have hi : i < res.length := by omega
      have hset : jsSet res i v = res.take i ++ some v :: res.drop (i + 1) := by
        rw [jsSet, if_pos hi, List.set_eq_take_cons_drop _ hi]
      have hlen : (jsSet res i v).length = res.length := by
        rw [jsSet, if_pos hi, List.length_set]
      rw [fillLoop, ih (jsSet res i v) v (i + 1) (by omega), hset]
      have hlt : (res.take i).length = i := by
        rw [List.length_take]
        omega
      have htake : (res.take i ++ some v :: res.drop (i + 1)).take (i + 1)
          = res.take i ++ [some v] := by
        rw [show i + 1 = (res.take i).length + 1 by rw [hlt],
          List.take_append]
        rfl
      have hdrop : (res.take i ++ some v :: res.drop (i + 1)).drop (i + 1 + n)
          = res.drop (i + (n + 1)) := by
        rw [show i + 1 + n = (res.take i).length + (1 + n) by rw [hlt]; omega,
          List.drop_append]
        rw [show 1 + n = n + 1 by omega, List.drop_succ_cons, List.drop_drop]
        congr 1
        omega
      rw [htake, hdrop, List.replicate_succ]
      simp [List.append_assoc]

/-- Claim C6: for in-bounds indices `start ≤ end`, `fill` returns a new
sequence equal to the input with positions `[start, end)` replaced by
the value, and the caller's input is left unmodified (the code writes
only to the `collection.slice()` copy, so the `collection` component of
the resulting state is the untouched argument). -/
theorem fill_inBounds_spec (T : Type) (seq : List T) (v : T) (s e : Nat)
    (hse : s ≤ e) (he : e ≤ seq.length) :
    (fill seq v s e).collection = seq
    ∧ (fill seq v s e).result
        = (seq.take s ++ List.replicate (e - s) v ++ seq.drop e).map some := by
  refine ⟨rfl, ?_⟩
  have h1 : (fill seq v s e).result = fillLoop (seq.map some) v s (e - s) := rfl
  rw [h1, fillLoop_spec (e - s) (seq.map some) v s (by simp [List.length_map]; omega)]
  rw [show s + (e - s) = e by omega]
  rw [← List.map_take, ← List.map_drop, ← List.map_replicate]
  simp [List.map_append]

/-- Claim C6 witness: `fill_inBounds_spec` at the documented example —
`fill([4, 6, 8, 10], "*", 1, 3)` (values embedded in `Int ⊕ String`)
returns `[4, "*", "*", 10]` and the input component is untouched. -/
theorem fill_inBounds_spec_witness :
    (fill [Sum.inl 4, Sum.inl 6, Sum.inl 8, Sum.inl 10]
        (Sum.inr "*" : Int ⊕ String) 1 3).collection
      = [Sum.inl 4, Sum.inl 6, Sum.inl 8, Sum.inl 10]
    ∧ (fill [Sum.inl 4, Sum.inl 6, Sum.inl 8, Sum.inl 10]
        (Sum.inr "*" : Int ⊕ String) 1 3).result
      = [some (Sum.inl 4), some (Sum.inr "*"), some (Sum.inr "*"),
          some (Sum.inl 10)] := by
  have h := fill_inBounds_spec (Int ⊕ String)
    [Sum.inl 4, Sum.inl 6, Sum.inl 8, Sum.inl 10] (Sum.inr "*") 1 3
    (by omega) (by simp)
  exact ⟨h.1, by rw [h.2]; rfl⟩

/-- Chunking the empty list gives no groups: `ceil(0 / size) = 0`. -/
lemma chunk_nil {T : Type u} (size : Nat) (hsize : 1 ≤ size) :
    chunk ([] : List T) size = [] := by
  have h0 : (List.length ([] : List T) + size - 1) / size = 0 := by
    simp only [List.length_nil, Nat.zero_add]
    exact Nat.div_eq_of_lt (by omega)
  unfold chunk
  rw [h0]
  rfl

/-- Unfolding of `chunk` on a non-empty list: the first group is
`take size`, the remaining groups chunk the rest. -/
lemma chunk_cons {T : Type u} (a : List T) (size : Nat) (hsize : 1 ≤ size)
    (hne : a ≠ []) :
    chunk a size = a.take size :: chunk (a.drop size) size := by
  have hlen : 1 ≤ a.length := List.length_pos.mpr hne
  have hnum : (a.length + size - 1) / size
      = ((a.drop size).length + size - 1) / size + 1 := by
    rw [List.length_drop]
    rcases le_or_lt a.length size with hle | hlt
    · have h1 : (a.length + size - 1) / size = 1 :=
        Nat.div_eq_of_lt_le (by omega) (by omega)
      have h2 : (a.length - size + size - 1) / size = 0 :=
        Nat.div_eq_of_lt (by omega)
      rw [h1, h2]
    · have h3 : a.length + size - 1 = ((a.length - size) + size - 1) + size := by
        omega
      rw [h3, Nat.add_div_right _ (by omega)]
  have hfun : ∀ i : Nat,
      jsSlice a ((Nat.succ i * size : Nat) : Int)
        ((Nat.succ i * size + size : Nat) : Int)
      = jsSlice (a.drop size) ((i * size : Nat) : Int)
        ((i * size + size : Nat) : Int) := by
    intro i
    rw [jsSlice_natCast, jsSlice_natCast, List.drop_drop, Nat.succ_mul]
    generalize i * size = m
    rw [Nat.add_comm size m]
    congr 1
    omega
  unfold chunk
  rw [hnum, List.range_succ_eq_map, List.map_cons, List.map_map]
  congr 1
  · have h0 := jsSlice_natCast a (0 * size) (0 * size + size)
    simpa using h0
  · have hcomp : ((fun i => jsSlice a ((i * size : Nat) : Int)
        ((i * size + size : Nat) : Int)) ∘ Nat.succ)
        = fun i => jsSlice (a.drop size) ((i * size : Nat) : Int)
            ((i * size + size : Nat) : Int) := by
      funext i
      exact hfun i
    rw [hcomp]

/-- Flattening the chunks of any list bounded in length reproduces the
list. -/
lemma chunk_flatten_of_le {T : Type u} (size : Nat) (hsize : 1 ≤ size) :
    ∀ (n : Nat) (a : List T), a.length ≤ n → (chunk a size).flatten = a := by
  intro n
  induction n with
  | zero =>
      intro a ha
      have ha' : a = [] := by
        rw [← List.length_eq_zero]
        omega
      subst ha'
      rw [chunk_nil size hsize]
      rfl
  | succ n ih =>
      intro a ha
      by_cases hne : a = []
      · subst hne
        rw [chunk_nil size hsize]
        rfl
      · rw [chunk_cons a size hsize hne, List.flatten_cons,
          ih (a.drop size)
            (by rw [List.length_drop]; omega)]
        exact List.take_append_drop size a

/-- All groups produced by `chunk` are non-empty, and every group but
possibly the last has exactly `size` elements. -/
lemma chunk_groups_of_le {T : Type u} (size : Nat) (hsize : 1 ≤ size) :
    ∀ (n : Nat) (a : List T), a.length ≤ n →
      (∀ g ∈ (chunk a size).dropLast, g.length = size)
      ∧ (∀ g ∈ chunk a size, g ≠ []) := by
  intro n
  induction n with
  | zero =>
      intro a ha
      have ha' : a = [] := by
        rw [← List.length_eq_zero]
        omega
      subst ha'
      rw [chunk_nil size hsize]
      exact ⟨fun g hg => by simp at hg, fun g hg => by simp at hg⟩
  | succ n ih =>
      intro a ha
      by_cases hne : a = []
      · subst hne
        rw [chunk_nil size hsize]
        exact ⟨fun g hg => by simp at hg, fun g hg => by simp at hg⟩
      · have hlen : 1 ≤ a.length := List.length_pos.mpr hne
        obtain ⟨ih1, ih2⟩ := ih (a.drop size)
          (by rw [List.length_drop]; omega)
        rw [chunk_cons a size hsize hne]
        constructor
        · intro g hg
          by_cases hrest : chunk (a.drop size) size = []
          · rw [hrest] at hg
            simp at hg
          · rw [List.dropLast_cons_of_ne_nil hrest] at hg
            rcases List.mem_cons.mp hg with h | h
            · subst h
              have hne2 : a.drop size ≠ [] := by
                intro hnil
                exact hrest (by rw [hnil, chunk_nil size hsize])
              have hlt : size < a.length := by
                by_contra hc
                exact hne2 (List.drop_eq_nil_of_le (by omega))
              rw [List.length_take]
              omega
            · exact ih1 g h
        · intro g hg
          rcases List.mem_cons.mp hg with h | h
          · subst h
            rw [Ne, List.take_eq_nil_iff]
            push_neg
            exact ⟨by omega, hne⟩
          · exact ih2 g h

/-- Claim C7: for every `n ≥ 1`, concatenating the groups returned by
`chunk(seq, n)` in order reproduces `seq` exactly, each group except
possibly the last has length `n`, and every group (in particular the
last when `seq` is non-empty) is non-empty. -/
theorem chunk_flatten_spec (T : Type) (seq : List T) (n : Nat) (h : 1 ≤ n) :
    (chunk seq n).flatten = seq
    ∧ (∀ g ∈ (chunk seq n).dropLast, g.length = n)
    ∧ (∀ g ∈ chunk seq n, g ≠ []) := by
  obtain ⟨h1, h2⟩ := chunk_groups_of_le n h seq.length seq le_rfl
  exact ⟨chunk_flatten_of_le n h seq.length seq le_rfl, h1, h2⟩

/-- Claim C7 witness: `chunk_flatten_spec` at `seq = [1, 2, 3]` and
`n = 2`. -/
theorem chunk_flatten_spec_witness :
    (chunk [1, 2, 3] 2).flatten = [1, 2, 3]
    ∧ (∀ g ∈ (chunk [1, 2, 3] 2).dropLast, g.length = 2)
    ∧ (∀ g ∈ chunk [1, 2, 3] 2, g ≠ []) :=
  chunk_flatten_spec Nat [1, 2, 3] 2 (by decide)

/-- Popping always shortens the backing array by one (to nothing on an
empty stack, by truncated subtraction). -/
lemma pop_size {T : Type u} (s : Stack T) :
    (Stack.pop s).2.size = s.size - 1 := by
  rw [Stack.pop_eq]
  simp [Stack.size, List.length_tail]

/-- Claim C8: over any sequence of `push`/`pop`/`peek`/`toArray`
operations, `size` equals the number of elements currently held — the
final size plus the number of successful pops equals the initial size
plus the number of pushes; moreover `push` increases `size` by exactly
one, `pop` on a non-empty stack decreases it by exactly one, and `peek`
and `toArray` leave the state (hence `size`) unchanged. -/
theorem stack_size_invariant (T : Type) :
    (∀ (s : Stack T) (ops : List (StackOp T)),
        Stack.size (runOps s ops) + succPops s ops
          = Stack.size s + numPushes ops)
    ∧ (∀ (s : Stack T) (v : T),
        Stack.size (Stack.push s v) = Stack.size s + 1)
    ∧ (∀ s : Stack T, Stack.size s ≠ 0 →
        Stack.size (Stack.pop s).2 + 1 = Stack.size s)
    ∧ (∀ s : Stack T, applyOp s StackOp.peek = s ∧ applyOp s StackOp.toArray = s) := by
  refine ⟨?_, ?_, ?_, fun s => ⟨rfl, rfl⟩⟩
  · intro s ops
    induction ops generalizing s with
    | nil => simp [runOps, succPops, numPushes]
    | cons op rest ih =>
        have hrun : runOps s (op :: rest) = runOps (applyOp s op) rest := rfl
        have hih := ih (applyOp s op)
        cases op with
        | push v =>
            have hsz : Stack.size (applyOp s (StackOp.push v))
                = Stack.size s + 1 := by
              simp [applyOp, Stack.push, Stack.size]
            rw [hrun, succPops, numPushes]
            omega
        | pop =>
            have hsz : Stack.size (applyOp s StackOp.pop)
                = Stack.size s - 1 := pop_size s
            rw [hrun, succPops, numPushes]
            by_cases h0 : Stack.size s = 0
            · rw [if_pos h0]
              omega
            · rw [if_neg h0]
              omega
        | peek =>
            rw [hrun, succPops, numPushes]
            exact hih
        | toArray =>
            rw [hrun, succPops, numPushes]
            exact hih
  · intro s v
    simp [Stack.push, Stack.size]
  · intro s h
    have := pop_size s
    omega

/-- Claim C8 witness: `stack_size_invariant` applied to the concrete run
`push 1; push 2; pop` from the empty stack of naturals, and to a pop
from the concrete singleton stack. -/
theorem stack_size_invariant_witness :
    Stack.size (runOps (Stack.new Nat)
        [StackOp.push 1, StackOp.push 2, StackOp.pop])
      + succPops (Stack.new Nat) [StackOp.push 1, StackOp.push 2, StackOp.pop]
      = Stack.size (Stack.new Nat)
        + numPushes [StackOp.push 1, StackOp.push 2, StackOp.pop]
    ∧ Stack.size (Stack.pop (Stack.push (Stack.new Nat) 5)).2 + 1
      = Stack.size (Stack.push (Stack.new Nat) 5) :=
  ⟨(stack_size_invariant Nat).1 (Stack.new Nat)
      [StackOp.push 1, StackOp.push 2, StackOp.pop],
    (stack_size_invariant Nat).2.2.1 (Stack.push (Stack.new Nat) 5)
      (by decide)⟩

/-- The `findIndex` worker returns `-1` exactly when no scanned element
satisfies the callback (at its position `i + j` in the whole array). -/
lemma jsFindIndexAux_neg_one {T : Type u} (p : T → Nat → List T → Bool)
    (whole : List T) :
    ∀ (l : List T) (i : Nat),
      jsFindIndexAux p l whole i = -1
        ↔ ∀ (j : Nat) (hj : j < l.length),
            p (l.get ⟨j, hj⟩) (i + j) whole = false := by
  intro l
  induction l with
  | nil =>
      intro i
      simp [jsFindIndexAux]
  | cons x rest ih =>
      intro i
      rw [jsFindIndexAux]
      by_cases hp : p x i whole = true
      · rw [if_pos hp]
        constructor
        · intro hEq
          exact absurd hEq (by omega)
        · intro hAll
          have h0 := hAll 0 (by simp)
          simp at h0
          rw [h0] at hp
          cases hp
      · rw [if_neg hp]
        rw [ih (i + 1)]
        constructor
        · intro hAll j hj
          cases j with
          | zero =>
              simp only [List.get, Nat.add_zero]
              simpa using (Bool.not_eq_true _).mp hp
          | succ j =>
              have hj' : j < rest.length := by
                simp at hj
                omega
              have := hAll j hj'
              rw [List.get_cons_succ, show i + (j + 1) = i + 1 + j by omega]
              exact this
        · intro hAll j hj
          have h' := hAll (j + 1) (by simp; omega)
          rw [List.get_cons_succ] at h'
          rw [show i + 1 + j = i + (j + 1) by omega]
          exact h'

/-- The `findIndex` worker never returns a negative number other than
`-1`. -/
lemma jsFindIndexAux_nonneg {T : Type u} (p : T → Nat → List T → Bool)
    (whole : List T) :
    ∀ (l : List T) (i : Nat),
      jsFindIndexAux p l whole i = -1 ∨ 0 ≤ jsFindIndexAux p l whole i := by
  intro l
  induction l with
  | nil =>
      intro i
      left
      rfl
  | cons x rest ih =>
      intro i
      rw [jsFindIndexAux]
      by_cases hp : p x i whole = true
      · rw [if_pos hp]
        right
        omega
      · rw [if_neg hp]
        exact ih (i + 1)

/-- When `k` is the least scanned offset whose element satisfies the
callback, the `findIndex` worker returns `i + k`. -/
lemma jsFindIndexAux_least {T : Type u} (p : T → Nat → List T → Bool)
    (whole : List T) :
    ∀ (l : List T) (i k : Nat) (hk : k < l.length),
      p (l.get ⟨k, hk⟩) (i + k) whole = true →
      (∀ (j : Nat) (hj : j < l.length), j < k →
        p (l.get ⟨j, hj⟩) (i + j) whole = false) →
      jsFindIndexAux p l whole i = ((i + k : Nat) : Int) := by
  intro l
  induction l with
  | nil =>
      intro i k hk
      exact absurd hk (by simp)
  | cons x rest ih =>
      intro i k hk htrue hleast
      rw [jsFindIndexAux]
      by_cases hp : p x i whole = true
      · cases k with
        | zero =>
            rw [if_pos hp]
            simp
        | succ k =>
            have h0 := hleast 0 (by simp) (by omega)
            simp at h0
            rw [h0] at hp
            cases hp
      · rw [if_neg hp]
        cases k with
        | zero =>
            have h0 : p x (i + 0) whole = true := by simpa using htrue
            simp at h0
            rw [h0] at hp
            exact absurd rfl hp
        | succ k =>
            have hk' : k < rest.length := by
              simp at hk
              omega
            have htrue' : p (rest.get ⟨k, hk'⟩) (i + 1 + k) whole = true := by
              rw [show i + 1 + k = i + (k + 1) by omega]
              simpa [List.get_cons_succ] using htrue
            have hleast' : ∀ (j : Nat) (hj : j < rest.length), j < k →
                p (rest.get ⟨j, hj⟩) (i + 1 + j) whole = false := by
              intro j hj hjk
              have h' := hleast (j + 1) (by simp; omega) (by omega)
              rw [List.get_cons_succ] at h'
              rw [show i + 1 + j = i + (j + 1) by omega]
              exact h'
            rw [ih (i + 1) k hk' htrue' hleast']
            exact congrArg (fun m : Nat => (m : Int)) (by omega)

/-- Claim C3, amended: for `startIndex` in `[0, length(seq))`, the
predicate is applied to the sliced suffix — `findIndex(seq, p,
startIndex)` returns `-1` exactly when no element of
`seq[startIndex:]` satisfies `p(value, relativeIndex, suffix)`, and
returns `startIndex + j` for the least such suffix offset `j`
otherwise (so for predicates that only inspect the value, it is the
lowest qualifying absolute index `≥ startIndex`). -/
theorem findIndex_suffix_spec (T : Type) (seq : List T)
    (p : T → Nat → List T → Bool) (startIndex : Nat)
    (_hstart : startIndex < seq.length) :
    (findIndex seq p startIndex = -1 ↔
      ∀ (j : Nat) (hj : j < (seq.drop startIndex).length),
        p ((seq.drop startIndex).get ⟨j, hj⟩) j (seq.drop startIndex) = false)
    ∧ ∀ (j : Nat) (hj : j < (seq.drop startIndex).length),
        p ((seq.drop startIndex).get ⟨j, hj⟩) j (seq.drop startIndex) = true →
        (∀ (j' : Nat) (hj' : j' < (seq.drop startIndex).length), j' < j →
          p ((seq.drop startIndex).get ⟨j', hj'⟩) j' (seq.drop startIndex)
            = false) →
        findIndex seq p startIndex = ((startIndex + j : Nat) : Int) := by
  have hslice : jsSlice seq (startIndex : Int) (seq.length : Int)
      = seq.drop startIndex := jsSlice_fromStart seq startIndex
  have hneg := jsFindIndexAux_neg_one p (seq.drop startIndex)
    (seq.drop startIndex) 0
  have hnonneg := jsFindIndexAux_nonneg p (seq.drop startIndex)
    (seq.drop startIndex) 0
  have hdef : jsFindIndex p (seq.drop startIndex)
      = jsFindIndexAux p (seq.drop startIndex) (seq.drop startIndex) 0 := rfl
  rw [← hdef] at hneg hnonneg
  simp only [findIndex, hslice]
  constructor
  · constructor
    · intro hEq
      have hfi : jsFindIndex p (seq.drop startIndex) = -1 := by
        by_cases hneg1 : jsFindIndex p (seq.drop startIndex) = -1
        · exact hneg1
        · rw [if_neg hneg1] at hEq
          rcases hnonneg with h1 | h1
          · exact h1
          · exact absurd hEq (by omega)
      intro j hj
      have := (hneg.mp hfi) j hj
      simpa using this
    · intro hAll
      have hfi : jsFindIndex p (seq.drop startIndex) = -1 :=
        hneg.mpr (by intro j hj; simpa using hAll j hj)
      rw [if_pos hfi]
      exact hfi
  · intro j hj htrue hleast
    have hfi : jsFindIndex p (seq.drop startIndex) = ((0 + j : Nat) : Int) :=
      jsFindIndexAux_least p (seq.drop startIndex) (seq.drop startIndex) 0 j hj
        (by simpa using htrue)
        (by intro j' hj' hlt; simpa using hleast j' hj' hlt)
    have hfi' : jsFindIndex p (seq.drop startIndex) = ((j : Nat) : Int) := by
      simpa using hfi
    rw [hfi', if_neg (by omega)]
    omega

/-- Claim C3 amended-theorem witness: `findIndex_suffix_spec` at the
documented example `findIndex([4, 6, 6, 8, 10], v => v === 6, 2)`,
whose least qualifying suffix offset is `0`, giving index `2`. -/
theorem findIndex_suffix_spec_witness :
    findIndex [4, 6, 6, 8, 10] (fun v _ _ => v == 6) 2 = 2 := by
  have h := (findIndex_suffix_spec Nat [4, 6, 6, 8, 10]
    (fun v _ _ => v == 6) 2 (by decide)).2 0 (by decide) (by decide)
    (by intro j' hj' hlt; exact absurd hlt (Nat.not_lt_zero j'))
  simpa using h

end Koans
